import Mathlib

/-!
# Verification of the patch-fixer hunk-relocation engine

Shallow embedding of the core of `patch_fixer` (the package variant under
`src/patch_fixer/`): line normalization (`utils.normalize_line`), the hunk
locator (`hunk.find_hunk_start`, `hunk.find_all_hunk_starts`,
`hunk.capture_hunk`), the error formatting of `errors.HunkErrorBase`, and the
end-of-input finalization of `patch_fixer.fix_patch`.

Python strings are modelled as Lean `String`s, and all Python string
primitives used by the code (`startswith`, `endswith`, `strip`, `lstrip`,
`rstrip`, `isspace`, `splitlines`) are re-implemented below over the
underlying character list with Python's semantics.  Python `int` is `Int`
(`Nat` where the source guarantees non-negativity), Python `float` similarity
scores are modelled as exact rationals `ℚ`, and Python exceptions become
`Except` error values.
-/

/-- Python `str.isspace` character class (Unicode whitespace as recognized by
CPython for `str.strip()` / `str.isspace()`). -/
def pyIsSpace (c : Char) : Bool :=
  c = ' ' || c = '\t' || c = '\n' || c = '\x0b' || c = '\x0c' || c = '\r' ||
  c = '\x1c' || c = '\x1d' || c = '\x1e' || c = '\x1f' || c = '\x85' || c = '\xa0' ||
  c = ' ' || (0x2000 ≤ c.toNat && c.toNat ≤ 0x200a) || c = ' ' ||
  c = ' ' || c = ' ' || c = ' ' || c = '　'

/-- Python `s.startswith(t)`. -/
def pyStartsWith (s t : String) : Bool :=
  t.data.isPrefixOf s.data

/-- Python `s.endswith(t)`. -/
def pyEndsWith (s t : String) : Bool :=
  t.data.isSuffixOf s.data

/-- Python `s.strip()` (strip Unicode whitespace from both ends). -/
def pyStrip (s : String) : String :=
  String.mk (((s.data.dropWhile pyIsSpace).reverse.dropWhile pyIsSpace).reverse)

/-- Python `s.lstrip(" ")` (strip only space characters from the left). -/
def pyLstripSpace (s : String) : String :=
  String.mk (s.data.dropWhile (· = ' '))

/-- Python `s.rstrip('\n')` (strip only newline characters from the right). -/
def pyRstripNewline (s : String) : String :=
  String.mk ((s.data.reverse.dropWhile (· = '\n')).reverse)

/-- Python `s.isspace()`: non-empty and all characters whitespace. -/
def pyIsSpaceStr (s : String) : Bool :=
  !s.data.isEmpty && s.data.all pyIsSpace

/-- Python `s[n:]`. -/
def strDrop (s : String) (n : Nat) : String :=
  String.mk (s.data.drop n)

/-- Python `s[:-n]` for `n ≤ len(s)` (used for terminator removal). -/
def strDropRight (s : String) (n : Nat) : String :=
  String.mk (s.data.take (s.data.length - n))

/-- Python `"".join(lines)`. -/
def joinLines (lines : List String) : String :=
  String.mk (lines.map String.data).flatten

/-- Python `str.splitlines` line-boundary character class. -/
def isLineBreakChar (c : Char) : Bool :=
  c = '\n' || c = '\r' || c = '\x0b' || c = '\x0c' || c = '\x1c' || c = '\x1d' ||
  c = '\x1e' || c = '\x85' || c = ' ' || c = ' '

/-- Worker for `str.splitlines(keepends=True)`: accumulates the current line
(reversed) and splits at every line boundary, treating `"\r\n"` as one
boundary. -/
def splitlinesAux : List Char → List Char → List String
  | [], acc => if acc.isEmpty then [] else [String.mk acc.reverse]
  | c :: rest, acc =>
    if c = '\r' then
      match rest with
      | c2 :: rest2 =>
        if c2 = '\n' then String.mk (acc.reverse ++ ['\r', '\n']) :: splitlinesAux rest2 []
        else String.mk (acc.reverse ++ ['\r']) :: splitlinesAux (c2 :: rest2) []
      | [] => String.mk (acc.reverse ++ ['\r']) :: splitlinesAux [] []
    else if isLineBreakChar c then
      String.mk (acc.reverse ++ [c]) :: splitlinesAux rest []
    else
      splitlinesAux rest (c :: acc)

/-- Python `s.splitlines(keepends=True)`. -/
def pySplitlinesKeepends (s : String) : List String :=
  splitlinesAux s.data []

/-- `regexes["END_LINE"].match(line)`: the anchored pattern
`^\\ No newline at end of file$` matches the bare marker or the marker
followed by a final newline. -/
def endLineMatch (line : String) : Bool :=
  line = "\\ No newline at end of file" || line = "\\ No newline at end of file\n"

/-- Error values for the hunk-locator call tree, covering
`errors.MissingHunkError`, `errors.OutOfOrderHunk`, the `EmptyHunk` sentinel,
the `ValueError("Cannot search for empty hunk.")` raised by
`find_hunk_start`, and the `IndexError` that `capture_hunk` would hit when
indexing `original_lines[last_hunk]` out of range while raising
`OutOfOrderHunk`. -/
inductive HunkErr where
  | missingHunk (hunk_lines : List String)
  | outOfOrder (hunk_lines : List String) (prev : String)
  | emptyHunk
  | emptySearch
  | indexError
deriving DecidableEq, Repr

/-- `errors.HunkErrorBase.format_hunk_for_error`: the stored hunk string
(`"".join(hunk_lines)`) is re-split with `splitlines(keepends=True)` and only
lines starting with `' '` or `'-'` (context or deletion) are kept. -/
def format_hunk_for_error (hunk_lines : List String) : String :=
  joinLines ((pySplitlinesKeepends (joinLines hunk_lines)).filter
    (fun line => pyStartsWith line " " || pyStartsWith line "-"))

/-- Errors raised by `utils.normalize_line`: `BadCarriageReturn` and the
`ValueError` for an interior line feed. -/
inductive NormErr where
  | badCarriageReturn
  | interiorLineFeed
deriving DecidableEq, Repr

/-- `utils.normalize_line`: normalize the line terminator to a single `\n`
while preserving all other content, rejecting interior terminators and a
trailing `"\n\r"`. -/
def normalize_line (line : String) : Except NormErr String :=
  if line = "" then .ok "\n"
  else if pyEndsWith line "\n\r" then .error .badCarriageReturn
  else
    let core :=
      if pyEndsWith line "\r\n" then strDropRight line 2
      else if pyEndsWith line "\r" then strDropRight line 1
      else if pyEndsWith line "\n" then strDropRight line 1
      else line
    if core.data.contains '\n' then .error .interiorLineFeed
    else if core.data.contains '\r' then .error .badCarriageReturn
    else .ok (core ++ "\n")

/-- `utils.fuzzy_line_similarity`, with the Python float arithmetic carried
out exactly in `ℚ`: twice the number of common characters (counted with
multiplicity over the character-set intersection) over the total length of
the two stripped lines. -/
def fuzzy_line_similarity (line1 line2 : String) : ℚ :=
  let l1 := pyStrip line1
  let l2 := pyStrip line2
  if l1.data.length = 0 ∧ l2.data.length = 0 then 1
  else if l1 = l2 then 1
  else if l1.data.length = 0 ∨ l2.data.length = 0 then 0
  else
    let common := ((l1.data.dedup.filter (fun c => l2.data.contains c)).map
      (fun c => min (l1.data.count c) (l2.data.count c))).sum
    (2 * common : ℚ) / ((l1.data.length : ℚ) + (l2.data.length : ℚ))

/-- The pattern-building loop of `find_hunk_start`: end-of-file markers are
skipped, context lines contribute their text with leading spaces stripped,
deletion lines contribute the text after the `-`, whitespace-only or empty
lines contribute themselves, and every other line (additions included) is
dropped. -/
def buildCtx (context_lines : List String) : List String :=
  context_lines.filterMap fun line =>
    if endLineMatch line then none
    else if pyStartsWith line " " then some (pyLstripSpace line)
    else if pyStartsWith line "-" then some (strDrop line 1)
    else if pyIsSpaceStr line || line = "" then some line
    else none

/-- One candidate position check of the exact-match loop: all pattern lines
compare equal to the file lines at offset `i` after `strip()`. -/
def linesMatchAt (original_lines ctx : List String) (i : Nat) : Bool :=
  (List.range ctx.length).all fun j =>
    pyStrip (original_lines.getD (i + j) "") = pyStrip (ctx.getD j "")

/-- The exact-match loop of `find_hunk_start`: first `i` in
`range(len(original_lines) - len(ctx) + 1)` where all lines match. -/
def exactSearch (ctx original_lines : List String) : Option Nat :=
  (List.range (original_lines.length + 1 - ctx.length)).find? (linesMatchAt original_lines ctx)

/-- The fuzzy-match loop of `find_hunk_start`: best average per-line
similarity and its position, scanning the same range and keeping a candidate
only when it strictly beats the best so far and exceeds `0.6`. -/
def fuzzyBest (ctx original_lines : List String) (n : Nat) : ℚ × Nat :=
  (List.range n).foldl
    (fun acc i =>
      let total := (List.range ctx.length).foldl
        (fun s j => s + fuzzy_line_similarity (original_lines.getD (i + j) "") (ctx.getD j "")) 0
      let avg := total / (ctx.length : ℚ)
      if avg > acc.1 ∧ avg > 3/5 then (avg, i) else acc)
    (0, 0)

/-- `hunk.find_hunk_start`: build the context pattern, fail on an empty
pattern, try exact matching, then (only when enabled) fuzzy matching, else
raise `MissingHunkError(context_lines)`. -/
def find_hunk_start (context_lines original_lines : List String) (fuzzy : Bool) :
    Except HunkErr Nat :=
  let ctx := buildCtx context_lines
  if ctx.isEmpty then .error .emptySearch
  else
    match exactSearch ctx original_lines with
    | some i => .ok i
    | none =>
      if fuzzy then
        let best := fuzzyBest ctx original_lines (original_lines.length + 1 - ctx.length)
        if best.1 > 3/5 then .ok best.2 else .error (.missingHunk context_lines)
      else .error (.missingHunk context_lines)

/-- The `while` loop of `find_all_hunk_starts`, fuelled: each iteration
searches the remaining suffix, records `base + idx`, and restarts after the
found position.  Every successful iteration consumes at least `idx + 1`
lines of the suffix, so with initial fuel `search_lines.length + 1` the fuel
is never exhausted (each call strictly shrinks the suffix and the search of
an empty suffix always fails). -/
def findAllAux (hunk_lines : List String) (fuzzy : Bool) :
    Nat → List String → Nat → Except HunkErr (List Nat)
  | 0, _, _ => .ok []
  | fuel + 1, rest, base =>
    match find_hunk_start hunk_lines rest fuzzy with
    | .ok idx =>
      match findAllAux hunk_lines fuzzy fuel (rest.drop (idx + 1)) (base + idx + 1) with
      | .ok more => .ok ((base + idx) :: more)
      | .error e => .error e
    | .error (.missingHunk _) => .ok []
    | .error e => .error e

/-- `hunk.find_all_hunk_starts`: all match positions of the hunk in
`search_lines`, collected by repeated `find_hunk_start` on shrinking
suffixes; `MissingHunkError` ends the loop, any other error propagates. -/
def find_all_hunk_starts (hunk_lines search_lines : List String) (fuzzy : Bool) :
    Except HunkErr (List Nat) :=
  findAllAux hunk_lines fuzzy (search_lines.length + 1) search_lines 0

/-- Hunk length as used by `capture_hunk`: a trailing end-of-file marker does
not count. -/
def hunkLen (current_hunk : List String) : Nat :=
  if endLineMatch (current_hunk.getLastD "") then current_hunk.length - 1
  else current_hunk.length

/-- Number of context lines (`startswith(' ')`) in the hunk body. -/
def countContext (current_hunk : List String) : Nat :=
  (current_hunk.filter (fun l => pyStartsWith l " ")).length

/-- Number of deletion lines (`startswith('-')`) in the hunk body. -/
def countMinus (current_hunk : List String) : Nat :=
  (current_hunk.filter (fun l => pyStartsWith l "-")).length

/-- Number of addition lines (`startswith('+')`) in the hunk body. -/
def countPlus (current_hunk : List String) : Nat :=
  (current_hunk.filter (fun l => pyStartsWith l "+")).length

/-- Python `min(candidates, key=key)` for a non-empty list: the first element
attaining the minimal key ( `<` keeps the earlier element on ties).  Returns
`0` on `[]`, where Python would raise; all call sites guard non-emptiness. -/
def pyMinBy : List Nat → (Nat → Nat) → Nat
  | [], _ => 0
  | x :: xs, key => xs.foldl (fun best y => if key y < key best then y else best) x

/-- The disambiguation key `abs(pos + 1 - expected_old_start)` of
`capture_hunk`. -/
def hintDistance (expected pos : Nat) : Nat :=
  ((pos : Int) + 1 - (expected : Int)).natAbs

/-- The resolved numeric fields of a hunk, produced by `capture_hunk` just
before it renders the fixed header (lines 89–147 of `hunk.py`). -/
structure HunkFix where
  old_start : Nat
  old_count : Nat
  new_start : Int
  new_count : Nat
  hunk_context : String
  offset : Int
  last_hunk : Nat
deriving DecidableEq, Repr

/-- The header rendering of `capture_hunk` (lines 149–153): condensed
single-number form when a count is exactly 1, long `start,count` form
otherwise. -/
def renderHunkHeader (old_start : Nat) (old_count : Nat) (new_start : Int)
    (new_count : Nat) (hunk_context : String) : String :=
  let old_part := if old_count ≠ 1 then s!"{old_start},{old_count}" else s!"{old_start}"
  let new_part := if new_count ≠ 1 then s!"{new_start},{new_count}" else s!"{new_start}"
  s!"@@ -{old_part} +{new_part} @@{hunk_context}\n"

/-- `hunk.capture_hunk` up to (and including) the offset and last-position
updates, returning the resolved fields instead of the rendered header.

The old header is `none` when Python received a falsy value (`None` or the
initial empty tuple, giving `expected_old_start = 0` and context `""`), and
`some (start, context)` for the match groups of a parsed or reconstructed
header, of which only group 0 (the stated old start) and group 4 (the
trailing context) are read. -/
def capture_hunk_core (current_hunk original_lines : List String) (offset : Int)
    (last_hunk : Nat) (old_header : Option (Nat × String)) (fuzzy : Bool) :
    Except HunkErr HunkFix :=
  if current_hunk.isEmpty then .error .emptyHunk
  else
    let expected_old_start := (old_header.map Prod.fst).getD 0
    let hunk_context := (old_header.map Prod.snd).getD ""
    let hl := hunkLen current_hunk
    let context_count := countContext current_hunk
    let minus_count := countMinus current_hunk
    let plus_count := countPlus current_hunk
    let old_count := context_count + minus_count
    let new_count := context_count + plus_count
    let offsetOut : Int := offset + ((new_count : Int) - (old_count : Int))
    if minus_count = hl then
      -- file deletion
      .ok ⟨1, old_count, 0, new_count, hunk_context, offsetOut, 1⟩
    else if plus_count = hl then
      -- file creation
      .ok ⟨0, old_count, 1, new_count, hunk_context, offsetOut, 0⟩
    else
      -- file modification: search from the last matched position
      let search_index := last_hunk
      match find_all_hunk_starts current_hunk (original_lines.drop search_index) fuzzy with
      | .error e => .error e
      | .ok matchList =>
        let chosen : Except HunkErr Nat :=
          if !matchList.isEmpty then
            let candidate_positions := matchList.map (· + search_index)
            if expected_old_start ≠ 0 then
              .ok (pyMinBy candidate_positions (hintDistance expected_old_start) + 1)
            else
              .ok (candidate_positions.headD 0 + 1)
          else
            -- retry from the start of the file, excluding lines already searched
            match find_all_hunk_starts current_hunk
                (original_lines.take (search_index + hl)) fuzzy with
            | .error e => .error e
            | .ok matchList2 =>
              if matchList2.isEmpty then .error (.missingHunk current_hunk)
              else if expected_old_start ≠ 0 then
                .ok (pyMinBy matchList2 (hintDistance expected_old_start) + 1)
              else
                .ok (matchList2.headD 0 + 1)
        match chosen with
        | .error e => .error e
        | .ok old_start =>
          if old_start < last_hunk + 1 then
            if h : last_hunk < original_lines.length then
              .error (.outOfOrder current_hunk (original_lines.get ⟨last_hunk, h⟩))
            else
              .error .indexError
          else
            let new_start : Int := if new_count = 0 then 0 else (old_start : Int) + offset
            .ok ⟨old_start, old_count, new_start, new_count, hunk_context, offsetOut, old_start⟩

/-- `hunk.capture_hunk`: resolve the hunk and return
`(fixed_header, offset, last_hunk)`. -/
def capture_hunk (current_hunk original_lines : List String) (offset : Int)
    (last_hunk : Nat) (old_header : Option (Nat × String)) (fuzzy : Bool) :
    Except HunkErr (String × Int × Nat) :=
  (capture_hunk_core current_hunk original_lines offset last_hunk old_header fuzzy).map
    fun r => (renderHunkHeader r.old_start r.old_count r.new_start r.new_count r.hunk_context,
              r.offset, r.last_hunk)

/-- Reference loading as done by `handle_file_header_start`,
`handle_rename_from` and `load_original_file`:
`[l.rstrip('\n') for l in file_lines]`. -/
def loadOriginalLines (file_lines : List String) : List String :=
  file_lines.map pyRstripNewline

/-- The engine state fields of `PatchState` that the end-of-input code of
`fix_patch` reads. -/
structure EngineState where
  fixed_lines : List String
  current_hunk : List String
  first_hunk : Bool
  offset : Int
  last_hunk : Nat
  current_hunk_header : Option (Nat × String)
  original_lines : List String

/-- The trailing-newline adjustment at the end of `fix_patch` (lines
497–504): when `add_newline` is off and either the loaded reference's last
line lacks a trailing newline or there are fixed lines with an empty
reference, strip the newline(s) from the last fixed line. -/
def final_newline_fix (add_newline : Bool) (original_lines fixed_lines : List String) :
    Except HunkErr (List String) :=
  if !add_newline &&
      ((!original_lines.isEmpty && !pyEndsWith (original_lines.getLastD "") "\n") ||
       (!fixed_lines.isEmpty && original_lines.isEmpty)) then
    match fixed_lines.getLast? with
    | none => .error .indexError
    | some lastLine => .ok (fixed_lines.dropLast ++ [pyRstripNewline lastLine])
  else .ok fixed_lines

/-- The end-of-input handling of `fix_patch` (lines 462–506, with no hooks
installed): resolve and emit the final pending hunk if any, silently dropping
it when `capture_hunk` signals `EmptyHunk` and re-raising
`MissingHunkError`/`OutOfOrderHunk`, then apply the trailing-newline
adjustment. -/
def fix_patch_finalize (add_newline fuzzy : Bool) (st : EngineState) :
    Except HunkErr (List String) :=
  let afterFlush : Except HunkErr (List String) :=
    if st.first_hunk then .ok st.fixed_lines
    else
      match capture_hunk st.current_hunk st.original_lines st.offset st.last_hunk
          st.current_hunk_header fuzzy with
      | .ok (fixed_header, _, _) => .ok (st.fixed_lines ++ fixed_header :: st.current_hunk)
      | .error .emptyHunk => .ok st.fixed_lines
      | .error e => .error e
  match afterFlush with
  | .error e => .error e
  | .ok fl => final_newline_fix add_newline st.original_lines fl

/-- A line in canonical form as produced by `normalize_line`: it ends with a
single `\n` and contains no other line-boundary character.  Every line that
`fix_patch` accumulates into `current_hunk` has this shape. -/
def cleanLine (l : String) : Bool :=
  pyEndsWith l "\n" && l.data.dropLast.all (fun c => !isLineBreakChar c)

/-! ## Theorems -/

/-- C1: for reference file lines `["line 1","line 2","line 3"]` and hunk body
`[" line 1\n"," line 2\n","+added line\n"," line 3\n"]` with the wrong stated
header `@@ -99,3 +99,4 @@` (match groups giving stated old start 99 and empty
trailing context), `capture_hunk` with running offset 0, last-matched
position 0 and fuzzy matching off returns the corrected header
`"@@ -1,3 +1,4 @@\n"` (together with updated offset 1 and last-matched
position 1). -/
theorem c1_scenarioA :
    capture_hunk [" line 1\n", " line 2\n", "+added line\n", " line 3\n"]
      ["line 1", "line 2", "line 3"] 0 0 (some (99, "")) false =
      .ok ("@@ -1,3 +1,4 @@\n", 1, 1) := by
  rfl

/-- C2 counterexample: on Scenario A the hunk resolves with old-start 1 and
old-count 3, so the claimed update rule would set the last-matched position
to `old-start − 1 + old-count = 3`; `capture_hunk` actually returns
last-matched position 1 (the resolved old-start itself, because the code
executes `last_hunk += old_start - last_hunk`). -/
theorem c2_counterexample :
    capture_hunk [" line 1\n", " line 2\n", "+added line\n", " line 3\n"]
      ["line 1", "line 2", "line 3"] 0 0 (some (99, "")) false =
      .ok (renderHunkHeader 1 3 1 4 "", 1, 1) ∧ (1 : Nat) ≠ 1 - 1 + 3 := by
  exact ⟨rfl, by decide⟩

/-- C4 counterexample: a first hunk resolves to old-start 2 (returned
last-matched position 2), and a subsequent hunk consisting entirely of
deletion lines then succeeds with resolved old-start 1 — `capture_hunk`
returns a result instead of raising `OutOfOrderHunk`, so a file's emitted
hunks can have non-increasing old-starts. -/
theorem c4_counterexample :
    capture_hunk [" line 2\n"] ["line 1", "line 2"] 0 0 (some (2, "")) false =
      .ok ("@@ -2 +2 @@\n", 0, 2) ∧
    capture_hunk ["-line 1\n"] ["line 1", "line 2"] 0 2 (some (1, "")) false =
      .ok ("@@ -1 +0,0 @@\n", -1, 1) ∧
    ¬(2 : Nat) < 1 := by
  exact ⟨rfl, rfl, by decide⟩

/-- C7 counterexample: `normalize_line` does not strip trailing whitespace
from an addition line; `"+x \n"` is returned unchanged, not as `"+x\n"`. -/
theorem c7_counterexample :
    normalize_line "+x \n" = .ok "+x \n" ∧ ("+x \n" : String) ≠ "+x\n" := by
  exact ⟨rfl, by decide⟩

/-- Structural facts holding for every successful `capture_hunk_core` run:
the resolved counts are exactly the context/deletion and context/addition line
counts, the offset is advanced by their difference, the returned last-matched
position equals the resolved old-start, and the trailing context is taken from
the old header. -/
theorem capture_hunk_core_ok
    (hunk ref : List String) (off : Int) (last : Nat)
    (oh : Option (Nat × String)) (fz : Bool) (r : HunkFix)
    (h : capture_hunk_core hunk ref off last oh fz = .ok r) :
    r.old_count = countContext hunk + countMinus hunk ∧
    r.new_count = countContext hunk + countPlus hunk ∧
    r.offset = off + (((countContext hunk + countPlus hunk : Nat) : Int) -
      ((countContext hunk + countMinus hunk : Nat) : Int)) ∧
    r.last_hunk = r.old_start ∧
    r.hunk_context = (oh.map Prod.snd).getD "" := by
  simp only [capture_hunk_core] at h
  repeat' split at h
  all_goals try exact Except.noConfusion h
  all_goals (injection h with h2; subst h2; exact ⟨rfl, rfl, rfl, rfl, rfl⟩)

/-- When a hunk is resolved through the context search (neither the
all-deletions nor the all-additions branch), a successful `capture_hunk_core`
implies the resolved old-start passed the out-of-order check
`old_start < last_hunk + 1`. -/
theorem capture_hunk_core_search_ok
    (hunk ref : List String) (off : Int) (last : Nat)
    (oh : Option (Nat × String)) (fz : Bool) (r : HunkFix)
    (hm1 : countMinus hunk ≠ hunkLen hunk)
    (hm2 : countPlus hunk ≠ hunkLen hunk)
    (h : capture_hunk_core hunk ref off last oh fz = .ok r) :
    last + 1 ≤ r.old_start := by
  simp only [capture_hunk_core] at h
  repeat' split at h
  all_goals first
    | exact Except.noConfusion h
    | exact absurd ‹countMinus hunk = hunkLen hunk› hm1
    | exact absurd ‹countPlus hunk = hunkLen hunk› hm2
    | (injection h with h2; subst h2; simp only []; omega)

/-- `pyMinBy` (Python `min` with a key) returns the first element attaining
the minimal key: the list splits around the returned element with all earlier
elements strictly larger and all later elements no smaller. -/
theorem pyMinBy_first_min (key : Nat → Nat) :
    ∀ (xs : List Nat) (x : Nat),
      ∃ l1 l2, x :: xs = l1 ++ pyMinBy (x :: xs) key :: l2 ∧
        (∀ q ∈ l1, key (pyMinBy (x :: xs) key) < key q) ∧
        (∀ q ∈ l2, key (pyMinBy (x :: xs) key) ≤ key q) := by
  intro xs
  induction xs with
  | nil =>
    intro x
    exact ⟨[], [], rfl, by simp, by simp⟩
  | cons y ys ih =>
    intro x
    have hstep : pyMinBy (x :: y :: ys) key = pyMinBy ((if key y < key x then y else x) :: ys) key := rfl
    by_cases hk : key y < key x
    · obtain ⟨l1, l2, heq, h1, h2⟩ := ih y
      have hmin : pyMinBy (x :: y :: ys) key = pyMinBy (y :: ys) key := by
        rw [hstep, if_pos hk]
      have hle : key (pyMinBy (y :: ys) key) ≤ key y := by
        cases l1 with
        | nil =>
          rw [List.nil_append] at heq
          injection heq with e1 e2
          rw [← e1]
        | cons a l1t =>
          rw [List.cons_append] at heq
          injection heq with e1 e2
          subst e1
          exact Nat.le_of_lt (h1 y (by simp))
      refine ⟨x :: l1, l2, ?_, ?_, ?_⟩
      · rw [hmin]; simp only [List.cons_append]; exact congrArg (List.cons x) heq
      · intro q hq
        rw [hmin]
        rcases List.mem_cons.mp hq with rfl | hq2
        · exact Nat.lt_of_le_of_lt hle hk
        · exact h1 q hq2
      · intro q hq; rw [hmin]; exact h2 q hq
    · obtain ⟨l1, l2, heq, h1, h2⟩ := ih x
      have hmin : pyMinBy (x :: y :: ys) key = pyMinBy (x :: ys) key := by
        rw [hstep, if_neg hk]
      have hxy : key x ≤ key y := Nat.le_of_not_lt hk
      cases l1 with
      | nil =>
        rw [List.nil_append] at heq
        injection heq with e1 e2
        refine ⟨[], y :: ys, by simp [hmin, ← e1], by simp, ?_⟩
        intro q hq
        rw [hmin, ← e1]
        rcases List.mem_cons.mp hq with rfl | hq2
        · exact hxy
        · rw [e2] at hq2; exact (e1 ▸ h2 q hq2)
      | cons a l1t =>
        rw [List.cons_append] at heq
        injection heq with e1 e2
        have ha : a = x ∧ ys = l1t ++ pyMinBy (x :: ys) key :: l2 := ⟨e1.symm, e2⟩
        refine ⟨x :: y :: l1t, l2, ?_, ?_, ?_⟩
        · rw [hmin]; simp only [List.cons_append]
          exact congrArg (fun t => x :: y :: t) ha.2
        · intro q hq
          rw [hmin]
          have hmx : key (pyMinBy (x :: ys) key) < key x := h1 a (by simp) |>.trans_le (by rw [ha.1])
          rcases List.mem_cons.mp hq with rfl | hq2
          · exact hmx
          · rcases List.mem_cons.mp hq2 with rfl | hq3
            · exact Nat.lt_of_lt_of_le hmx hxy
            · exact h1 q (by simp [hq3])
        · intro q hq; rw [hmin]; exact h2 q hq

theorem pyStartsWith_single (s : String) (c : Char) :
    pyStartsWith s (String.mk [c]) = (s.data.head? == some c) := by
  cases hd : s.data with
  | nil => simp [pyStartsWith, hd, List.isPrefixOf]
  | cons a t => simp [pyStartsWith, hd, List.isPrefixOf, eq_comm]

theorem pyStartsWith_single_ne (l : String) (c1 c2 : Char) (hne : c1 ≠ c2)
    (h : pyStartsWith l (String.mk [c1]) = true) :
    pyStartsWith l (String.mk [c2]) = false := by
  rw [pyStartsWith_single] at h ⊢
  rw [beq_iff_eq] at h
  rw [h]
  simp [hne]

theorem head_of_startsWith_single (l : String) (c : Char)
    (h : pyStartsWith l (String.mk [c]) = true) : l.data.head? = some c := by
  rw [pyStartsWith_single, beq_iff_eq] at h
  exact h

theorem endLineMatch_of_head (l : String) (c : Char) (hc : c ≠ '\\')
    (h : l.data.head? = some c) : endLineMatch l = false := by
  have e1 : l ≠ "\\ No newline at end of file" := by
    rintro rfl
    rw [show (("\\ No newline at end of file" : String).data.head?) = some '\\' from rfl] at h
    exact hc (Option.some.inj h).symm
  have e2 : l ≠ "\\ No newline at end of file\n" := by
    rintro rfl
    rw [show (("\\ No newline at end of file\n" : String).data.head?) = some '\\' from rfl] at h
    exact hc (Option.some.inj h).symm
  simp [endLineMatch, e1, e2]

theorem getLastD_mem (l : List String) (d : String) (h : l ≠ []) : l.getLastD d ∈ l := by
  induction l generalizing d with
  | nil => exact absurd rfl h
  | cons a t ih =>
    cases ht : t with
    | nil => simp [List.getLastD]
    | cons b t2 =>
      rw [List.getLastD_cons]
      right
      rw [← ht]
      exact ih a (by simp [ht])

theorem startsWithD_not_context (l : String) (h : pyStartsWith l "-" = true) :
    pyStartsWith l " " = false :=
  pyStartsWith_single_ne l '-' ' ' (by decide) h

theorem startsWithD_not_plus (l : String) (h : pyStartsWith l "-" = true) :
    pyStartsWith l "+" = false :=
  pyStartsWith_single_ne l '-' '+' (by decide) h

theorem startsWithP_not_context (l : String) (h : pyStartsWith l "+" = true) :
    pyStartsWith l " " = false :=
  pyStartsWith_single_ne l '+' ' ' (by decide) h

theorem startsWithP_not_minus (l : String) (h : pyStartsWith l "+" = true) :
    pyStartsWith l "-" = false :=
  pyStartsWith_single_ne l '+' '-' (by decide) h

theorem hunkLen_of_uniform (hunk : List String) (c : Char) (hc : c ≠ '\\')
    (hne : hunk ≠ []) (hall : ∀ l ∈ hunk, pyStartsWith l (String.mk [c]) = true) :
    hunkLen hunk = hunk.length := by
  have hmem := getLastD_mem hunk "" hne
  have hhead := head_of_startsWith_single _ c (hall _ hmem)
  unfold hunkLen
  rw [endLineMatch_of_head _ c hc hhead]
  simp

theorem isSuffixOf_pair_false (a b : Char) (d : List Char) (hb : b ∉ d) :
    List.isSuffixOf [a, b] d = false := by
  rw [Bool.eq_false_iff]
  intro hsuf
  rw [List.isSuffixOf_iff_suffix] at hsuf
  obtain ⟨u, hu⟩ := hsuf
  exact hb (by rw [← hu]; simp)

theorem isSuffixOf_single_false (a : Char) (d : List Char) (ha : a ∉ d) :
    List.isSuffixOf [a] d = false := by
  rw [Bool.eq_false_iff]
  intro hsuf
  rw [List.isSuffixOf_iff_suffix] at hsuf
  obtain ⟨u, hu⟩ := hsuf
  exact ha (by rw [← hu]; simp)

theorem isSuffixOf_single_concat (a : Char) (d : List Char) :
    List.isSuffixOf [a] (d ++ [a]) = true := by
  rw [List.isSuffixOf_iff_suffix]
  exact ⟨d, rfl⟩

theorem isSuffixOf_pair_concat (a b : Char) (d : List Char) :
    List.isSuffixOf [a, b] (d ++ [b]) = List.isSuffixOf [a] d := by
  by_cases h : List.isSuffixOf [a] d = true
  · rw [h]
    rw [List.isSuffixOf_iff_suffix] at h
    obtain ⟨u, hu⟩ := h
    rw [show ([a, b] : List Char).isSuffixOf (d ++ [b]) = true ↔ [a, b] <:+ (d ++ [b])
      from List.isSuffixOf_iff_suffix]
    exact ⟨u, by rw [← hu]; simp⟩
  · rw [Bool.not_eq_true] at h
    rw [h, Bool.eq_false_iff]
    intro hsuf
    rw [List.isSuffixOf_iff_suffix] at hsuf
    obtain ⟨u, hu⟩ := hsuf
    have hd : u ++ [a] = d := by
      have h2 : (u ++ [a]) ++ [b] = d ++ [b] := by simpa using hu
      exact List.append_cancel_right h2
    have : List.isSuffixOf [a] d = true := by
      rw [List.isSuffixOf_iff_suffix]
      exact ⟨u, hd⟩
    rw [h] at this
    exact Bool.noConfusion this

theorem isSuffixOf_pair_last_ne (a b x : Char) (d : List Char) (hx : d.getLast? = some x)
    (hne : b ≠ x) : List.isSuffixOf [a, b] d = false := by
  rw [Bool.eq_false_iff]
  intro hsuf
  rw [List.isSuffixOf_iff_suffix] at hsuf
  obtain ⟨u, hu⟩ := hsuf
  rw [← hu] at hx
  rw [show u ++ [a, b] = (u ++ [a]) ++ [b] by simp] at hx
  rw [List.getLast?_concat] at hx
  exact hne (Option.some.inj hx)

theorem isSuffixOf_single_last_ne (a x : Char) (d : List Char) (hx : d.getLast? = some x)
    (hne : a ≠ x) : List.isSuffixOf [a] d = false := by
  rw [Bool.eq_false_iff]
  intro hsuf
  rw [List.isSuffixOf_iff_suffix] at hsuf
  obtain ⟨u, hu⟩ := hsuf
  rw [← hu, List.getLast?_concat] at hx
  exact hne (Option.some.inj hx)

theorem splitlinesAux_newline (rest acc : List Char) :
    splitlinesAux ('\n' :: rest) acc = String.mk (acc.reverse ++ ['\n']) :: splitlinesAux rest [] := by
  rw [splitlinesAux.eq_def]
  dsimp only
  rw [if_neg (by decide), if_pos (by decide)]

theorem splitlinesAux_nonbreak (c : Char) (hc : isLineBreakChar c = false) (cs acc : List Char) :
    splitlinesAux (c :: cs) acc = splitlinesAux cs (c :: acc) := by
  have hcr : c ≠ '\r' := by intro h; subst h; simp [isLineBreakChar] at hc
  rw [splitlinesAux.eq_def]
  dsimp only
  rw [if_neg hcr, if_neg (by simp [hc])]

theorem splitlinesAux_clean :
    ∀ (core rest acc : List Char), (∀ c ∈ core, isLineBreakChar c = false) →
      splitlinesAux (core ++ '\n' :: rest) acc =
        String.mk (acc.reverse ++ core ++ ['\n']) :: splitlinesAux rest [] := by
  intro core
  induction core with
  | nil =>
    intro rest acc _
    simpa using splitlinesAux_newline rest acc
  | cons c cs ih =>
    intro rest acc hall
    have hc := hall c (by simp)
    have hall2 : ∀ x ∈ cs, isLineBreakChar x = false := fun x hx => hall x (by simp [hx])
    rw [List.cons_append, splitlinesAux_nonbreak c hc]
    rw [ih rest (c :: acc) hall2]
    simp

theorem cleanLine_data (l : String) (h : cleanLine l = true) :
    ∃ core, l.data = core ++ ['\n'] ∧ ∀ c ∈ core, isLineBreakChar c = false := by
  unfold cleanLine at h
  rw [Bool.and_eq_true] at h
  obtain ⟨h1, h2⟩ := h
  rw [pyEndsWith, List.isSuffixOf_iff_suffix] at h1
  obtain ⟨u, hu⟩ := h1
  refine ⟨u, ?_, ?_⟩
  · rw [← hu]
  · intro c hc
    have hdrop : l.data.dropLast = u := by
      rw [← hu]
      show (u ++ ("\n" : String).data).dropLast = u
      rw [show ("\n" : String).data = ['\n'] from rfl]
      exact List.dropLast_concat ..
    rw [hdrop] at h2
    have h3 : (!isLineBreakChar c) = true := by
      rw [List.all_eq_true] at h2
      exact h2 c hc
    cases hbc : isLineBreakChar c
    · rfl
    · rw [hbc] at h3; exact Bool.noConfusion h3

theorem pySplitlines_join (ls : List String) (h : ∀ l ∈ ls, cleanLine l = true) :
    pySplitlinesKeepends (joinLines ls) = ls := by
  induction ls with
  | nil => rfl
  | cons l ls2 ih =>
    obtain ⟨core, hcore, hclean⟩ := cleanLine_data l (h l (by simp))
    show splitlinesAux ((l :: ls2).map String.data).flatten [] = l :: ls2
    rw [List.map_cons, List.flatten_cons, hcore, List.append_assoc, List.singleton_append]
    rw [splitlinesAux_clean core _ [] hclean]
    congr 1
    · rw [String.ext_iff]
      show core ++ ['\n'] = l.data
      exact hcore.symm
    · exact ih (fun x hx => h x (by simp [hx]))

theorem format_hunk_clean (hunk : List String) (h : ∀ l ∈ hunk, cleanLine l = true) :
    format_hunk_for_error hunk =
      joinLines (hunk.filter fun l => pyStartsWith l " " || pyStartsWith l "-") := by
  unfold format_hunk_for_error
  rw [pySplitlines_join hunk h]

theorem find_all_no_match (hunk lines : List String)
    (hctx : buildCtx hunk ≠ [])
    (hex : exactSearch (buildCtx hunk) lines = none) :
    find_all_hunk_starts hunk lines false = .ok [] := by
  have hctx2 : (buildCtx hunk).isEmpty = false := by
    cases hb : buildCtx hunk with
    | nil => exact absurd hb hctx
    | cons a t => rfl
  unfold find_all_hunk_starts
  rw [findAllAux]
  rw [show find_hunk_start hunk lines false = .error (.missingHunk hunk) by
    simp only [find_hunk_start, hctx2, Bool.false_eq_true, if_false, hex]]

theorem pyRstripNewline_no_newline (s : String) :
    pyEndsWith (pyRstripNewline s) "\n" = false := by
  rw [Bool.eq_false_iff]
  intro hsuf
  rw [show pyEndsWith (pyRstripNewline s) "\n" =
    List.isSuffixOf ['\n'] ((s.data.reverse.dropWhile (· = '\n')).reverse) from rfl] at hsuf
  rw [List.isSuffixOf_iff_suffix] at hsuf
  obtain ⟨u, hu⟩ := hsuf
  have hlast : ((s.data.reverse.dropWhile (· = '\n')).reverse).getLast? = some '\n' := by
    rw [← hu, List.getLast?_concat]
  rw [List.getLast?_eq_head?_reverse, List.reverse_reverse] at hlast
  have := List.head?_dropWhile_not (· = '\n') s.data.reverse
  rw [hlast] at this
  simp at this

theorem loadOriginalLines_getLastD :
    ∀ (t : List String) (a d e : String),
      (loadOriginalLines (a :: t)).getLastD d = pyRstripNewline ((a :: t).getLastD e) := by
  intro t
  induction t with
  | nil => intro a d e; rfl
  | cons b t2 ih =>
    intro a d e
    rw [show loadOriginalLines (a :: b :: t2) =
      pyRstripNewline a :: loadOriginalLines (b :: t2) from rfl]
    rw [List.getLastD_cons, List.getLastD_cons]
    exact ih b (pyRstripNewline a) a

/-- C2 (amended): for every successfully resolved hunk, `capture_hunk`
updates the running offset by adding (new-count − old-count), and sets the
last-matched position to the resolved old-start itself — the value rendered
as the header's old-start — not to old-start − 1 + old-count. -/
theorem c2_amended_update
    (hunk ref : List String) (off : Int) (last : Nat) (oh : Option (Nat × String)) (fz : Bool)
    (hdr : String) (off' : Int) (last' : Nat)
    (hok : capture_hunk hunk ref off last oh fz = .ok (hdr, off', last')) :
    off' = off + (((countContext hunk + countPlus hunk : Nat) : Int) -
      ((countContext hunk + countMinus hunk : Nat) : Int)) ∧
    ∃ ns, hdr = renderHunkHeader last' (countContext hunk + countMinus hunk) ns
      (countContext hunk + countPlus hunk) ((oh.map Prod.snd).getD "") := by
  rcases hcore : capture_hunk_core hunk ref off last oh fz with e | r
  · rw [capture_hunk, hcore] at hok; exact Except.noConfusion hok
  rw [capture_hunk, hcore] at hok
  simp only [Except.map] at hok
  injection hok with h3
  have hh : renderHunkHeader r.old_start r.old_count r.new_start r.new_count r.hunk_context = hdr :=
    congrArg (fun t => t.1) h3
  have ho : r.offset = off' := congrArg (fun t => t.2.1) h3
  have hl : r.last_hunk = last' := congrArg (fun t => t.2.2) h3
  obtain ⟨c1, c2, c3, c4, c5⟩ := capture_hunk_core_ok hunk ref off last oh fz r hcore
  refine ⟨by rw [← ho, c3], ⟨r.new_start, ?_⟩⟩
  rw [← hh, ← hl, c4, c1, c2, c5]

/-- C3: whenever the exact search from the last-matched position yields
candidate start positions `ps` and `capture_hunk` (fuzzy off) succeeds on a
hunk that is neither all-deletions nor all-additions, the resolved old-start
(the returned last-matched value, 1-based) is: when the stated old-start is
non-zero, the candidate whose 1-based line number is numerically closest to
it, ties broken by the first candidate in iteration order (all earlier
candidates have strictly larger distance, all later ones no smaller); when
the header carried no usable hint (stated start 0), the first match found. -/
theorem c3_closest_candidate
    (hunk ref : List String) (off : Int) (last : Nat) (oh : Option (Nat × String))
    (ps : List Nat) (hdr : String) (off' : Int) (last' : Nat)
    (hm1 : countMinus hunk ≠ hunkLen hunk) (hm2 : countPlus hunk ≠ hunkLen hunk)
    (hfind : find_all_hunk_starts hunk (ref.drop last) false = .ok ps)
    (hps : ps ≠ [])
    (hok : capture_hunk hunk ref off last oh false = .ok (hdr, off', last')) :
    1 ≤ last' ∧
    ((oh.map Prod.fst).getD 0 ≠ 0 →
      ∃ l1 l2, ps.map (· + last) = l1 ++ (last' - 1) :: l2 ∧
        (∀ q ∈ l1, hintDistance ((oh.map Prod.fst).getD 0) (last' - 1) <
          hintDistance ((oh.map Prod.fst).getD 0) q) ∧
        (∀ q ∈ l2, hintDistance ((oh.map Prod.fst).getD 0) (last' - 1) ≤
          hintDistance ((oh.map Prod.fst).getD 0) q)) ∧
    ((oh.map Prod.fst).getD 0 = 0 → last' = ps.headD 0 + last + 1) := by
  have hne : hunk.isEmpty = false := by
    cases hunk with
    | nil => exact absurd rfl hm1
    | cons a t => rfl
  have hps' : ps.isEmpty = false := by
    cases ps with
    | nil => exact absurd rfl hps
    | cons p t => rfl
  rcases hcore : capture_hunk_core hunk ref off last oh false with e | r
  · rw [capture_hunk, hcore] at hok; exact Except.noConfusion hok
  rw [capture_hunk, hcore] at hok
  simp only [Except.map] at hok
  injection hok with h3
  have hlast : r.last_hunk = last' := congrArg (fun t => t.2.2) h3
  simp only [capture_hunk_core, hne, Bool.false_eq_true, if_false, if_neg hm1, if_neg hm2,
    hfind, hps', Bool.not_false, if_true] at hcore
  split at hcore
  · rename_i e2 hexp
    split at hexp <;> exact Except.noConfusion hexp
  rename_i old_start hexp
  split at hcore
  · split at hcore <;> exact Except.noConfusion hcore
  injection hcore with h4
  subst h4
  simp only [] at hlast
  subst hlast
  split at hexp
  · -- expected old start is nonzero
    rename_i hexp0
    injection hexp with h5
    subst h5
    refine ⟨Nat.le_add_left 1 _, fun _ => ?_, fun habs => absurd habs hexp0⟩
    obtain ⟨p, ps2, rfl⟩ : ∃ p ps2, ps = p :: ps2 := by
      cases ps with
      | nil => exact absurd rfl hps
      | cons p t => exact ⟨p, t, rfl⟩
    obtain ⟨l1, l2, heq, hstrict, hle⟩ :=
      pyMinBy_first_min (hintDistance ((oh.map Prod.fst).getD 0))
        (ps2.map (· + last)) (p + last)
    refine ⟨l1, l2, ?_, ?_, ?_⟩
    · simpa only [List.map_cons, Nat.add_sub_cancel] using heq
    · simpa only [Nat.add_sub_cancel] using hstrict
    · simpa only [Nat.add_sub_cancel] using hle
  · -- no usable start hint
    rename_i hexp0
    have hexp1 : (oh.map Prod.fst).getD 0 = 0 := Decidable.not_not.mp hexp0
    injection hexp with h5
    subst h5
    refine ⟨Nat.le_add_left 1 _, fun habs => absurd hexp1 habs, fun _ => ?_⟩
    cases ps with
    | nil => exact absurd rfl hps
    | cons p t => simp

/-- C4 (amended): within one file entry, hunks resolved via the context
search (neither all-deletions nor all-additions) have strictly increasing
resolved old-starts: a successful second capture starting from the previous
hunk's last-matched position returns a strictly larger last-matched value
(the resolved old-start), because a found position earlier than
last-matched + 1 raises `OutOfOrderHunk` instead.  Degenerate whole-file
deletion/creation hunks bypass this check (see the counterexample). -/
theorem c4_amended_search_monotonic
    (hunk1 hunk2 ref : List String) (offA offB : Int) (lastA : Nat)
    (ohA ohB : Option (Nat × String)) (fz : Bool)
    (hdr1 hdr2 : String) (offA2 offB2 : Int) (last1 last2 : Nat)
    (hm1 : countMinus hunk2 ≠ hunkLen hunk2) (hm2 : countPlus hunk2 ≠ hunkLen hunk2)
    (h1 : capture_hunk hunk1 ref offA lastA ohA fz = .ok (hdr1, offA2, last1))
    (h2 : capture_hunk hunk2 ref offB last1 ohB fz = .ok (hdr2, offB2, last2)) :
    last1 < last2 := by
  rcases hcore : capture_hunk_core hunk2 ref offB last1 ohB fz with e | r
  · rw [capture_hunk, hcore] at h2; exact Except.noConfusion h2
  rw [capture_hunk, hcore] at h2
  simp only [Except.map] at h2
  injection h2 with h3
  have hl : r.last_hunk = last2 := congrArg (fun t => t.2.2) h3
  have hmono := capture_hunk_core_search_ok hunk2 ref offB last1 ohB fz r hm1 hm2 hcore
  have hol := (capture_hunk_core_ok hunk2 ref offB last1 ohB fz r hcore).2.2.2.1
  omega

/-- C5: a hunk consisting entirely of deletion lines resolves to
old-start 1 / new-start 0, and one consisting entirely of addition lines to
old-start 0 / new-start 1 with an empty old range (count 0) — in both cases
for every reference (so without searching it), and in particular for a
reference with zero lines (new-file target), where the header's old range is
(0,0) and new-start is 1. -/
theorem c5_degenerate_cases
    (hunkD hunkA ref : List String) (off : Int) (last : Nat)
    (oh : Option (Nat × String)) (fz : Bool)
    (hD : hunkD ≠ []) (hDall : ∀ l ∈ hunkD, pyStartsWith l "-" = true)
    (hA : hunkA ≠ []) (hAall : ∀ l ∈ hunkA, pyStartsWith l "+" = true) :
    capture_hunk_core hunkD ref off last oh fz =
      .ok ⟨1, hunkD.length, 0, 0, (oh.map Prod.snd).getD "", off - hunkD.length, 1⟩ ∧
    capture_hunk_core hunkA ref off last oh fz =
      .ok ⟨0, 0, 1, hunkA.length, (oh.map Prod.snd).getD "", off + hunkA.length, 0⟩ ∧
    capture_hunk_core hunkA [] off last oh fz =
      .ok ⟨0, 0, 1, hunkA.length, (oh.map Prod.snd).getD "", off + hunkA.length, 0⟩ := by
  have hDne : hunkD.isEmpty = false := by
    cases hunkD with | nil => exact absurd rfl hD | cons a t => rfl
  have hAne : hunkA.isEmpty = false := by
    cases hunkA with | nil => exact absurd rfl hA | cons a t => rfl
  have hminus : capture_hunk_core hunkD ref off last oh fz =
      .ok ⟨1, hunkD.length, 0, 0, (oh.map Prod.snd).getD "", off - hunkD.length, 1⟩ := by
    have hcm : countMinus hunkD = hunkD.length := by
      unfold countMinus
      rw [List.filter_eq_self.mpr hDall]
    have hcc : countContext hunkD = 0 := by
      unfold countContext
      rw [List.length_eq_zero, List.filter_eq_nil_iff]
      intro l hl
      simp [startsWithD_not_context l (hDall l hl)]
    have hcp : countPlus hunkD = 0 := by
      unfold countPlus
      rw [List.length_eq_zero, List.filter_eq_nil_iff]
      intro l hl
      simp [startsWithD_not_plus l (hDall l hl)]
    have hhl : hunkLen hunkD = hunkD.length :=
      hunkLen_of_uniform hunkD '-' (by decide) hD hDall
    simp only [capture_hunk_core, hDne, Bool.false_eq_true, if_false, hcm, hcc, hcp, hhl,
      Nat.zero_add, Nat.add_zero]
    rw [if_pos trivial]
    simp only [Except.ok.injEq, HunkFix.mk.injEq, true_and, and_true]
    push_cast
    ring
  have hplus : ∀ refX : List String, capture_hunk_core hunkA refX off last oh fz =
      .ok ⟨0, 0, 1, hunkA.length, (oh.map Prod.snd).getD "", off + hunkA.length, 0⟩ := by
    intro refX
    have hcm : countMinus hunkA = 0 := by
      unfold countMinus
      rw [List.length_eq_zero, List.filter_eq_nil_iff]
      intro l hl
      simp [startsWithP_not_minus l (hAall l hl)]
    have hcc : countContext hunkA = 0 := by
      unfold countContext
      rw [List.length_eq_zero, List.filter_eq_nil_iff]
      intro l hl
      simp [startsWithP_not_context l (hAall l hl)]
    have hcp : countPlus hunkA = hunkA.length := by
      unfold countPlus
      rw [List.filter_eq_self.mpr hAall]
    have hhl : hunkLen hunkA = hunkA.length :=
      hunkLen_of_uniform hunkA '+' (by decide) hA hAall
    have hlen : hunkA.length ≠ 0 := by
      cases hunkA with | nil => exact absurd rfl hA | cons a t => simp
    simp only [capture_hunk_core, hAne, Bool.false_eq_true, if_false, hcm, hcc, hcp, hhl,
      Nat.zero_add, Nat.add_zero]
    rw [if_neg (by omega), if_pos trivial]
    simp only [Except.ok.injEq, HunkFix.mk.injEq, true_and, and_true]
    push_cast
    ring
  exact ⟨hminus, hplus ref, hplus []⟩

/-- C6: every header emitted by `capture_hunk` renders old-count as exactly
the number of context lines (starting with a space) plus deletion lines, and
new-count as exactly context plus addition lines. -/
theorem c6_count_consistency
    (hunk ref : List String) (off : Int) (last : Nat) (oh : Option (Nat × String)) (fz : Bool)
    (hdr : String) (off' : Int) (last' : Nat)
    (hok : capture_hunk hunk ref off last oh fz = .ok (hdr, off', last')) :
    ∃ old_start new_start,
      hdr = renderHunkHeader old_start (countContext hunk + countMinus hunk) new_start
        (countContext hunk + countPlus hunk) ((oh.map Prod.snd).getD "") := by
  rcases hcore : capture_hunk_core hunk ref off last oh fz with e | r
  · rw [capture_hunk, hcore] at hok; exact Except.noConfusion hok
  rw [capture_hunk, hcore] at hok
  simp only [Except.map] at hok
  injection hok with h3
  have hh : renderHunkHeader r.old_start r.old_count r.new_start r.new_count r.hunk_context = hdr :=
    congrArg (fun t => t.1) h3
  obtain ⟨c1, c2, c3, c4, c5⟩ := capture_hunk_core_ok hunk ref off last oh fz r hcore
  exact ⟨r.old_start, r.new_start, by rw [← hh, c1, c2, c5]⟩

/-- C7 (amended): `normalize_line` only normalizes the terminator: for every
line consisting of terminator-free content followed by one of the endings
"", "\n", "\r", "\r\n", the result is the content unchanged — trailing
whitespace included, also on addition lines — with a single "\n" appended. -/
theorem c7_amended_normalize (core : List Char) (t : String)
    (hcore : ∀ c ∈ core, c ≠ '\n' ∧ c ≠ '\r')
    (ht : t = "" ∨ t = "\n" ∨ t = "\r" ∨ t = "\r\n") :
    normalize_line (String.mk (core ++ t.data)) = .ok (String.mk (core ++ ['\n'])) := by
  have hnn : '\n' ∉ core := fun h => (hcore _ h).1 rfl
  have hnr : '\r' ∉ core := fun h => (hcore _ h).2 rfl
  have hcn : core.contains '\n' = false := by simp [List.contains, hnn]
  have hcr : core.contains '\r' = false := by simp [List.contains, hnr]
  have hdata : ∀ (d : List Char), (String.mk d).data = d := fun d => rfl
  rcases ht with rfl | rfl | rfl | rfl
  · -- no terminator
    by_cases hc : core = []
    · subst hc; rfl
    · have hne : String.mk (core ++ ("" : String).data) ≠ "" := by
        simp only [show ("" : String).data = [] from rfl, List.append_nil]
        intro h
        exact hc (by simpa using congrArg String.data h)
      rw [normalize_line, if_neg hne]
      rw [show pyEndsWith (String.mk (core ++ ("" : String).data)) "\n\r" =
        List.isSuffixOf ['\n', '\r'] core by simp [pyEndsWith]]
      rw [isSuffixOf_pair_false '\n' '\r' core hnr]
      rw [show pyEndsWith (String.mk (core ++ ("" : String).data)) "\r\n" =
        List.isSuffixOf ['\r', '\n'] core by simp [pyEndsWith]]
      rw [isSuffixOf_pair_false '\r' '\n' core hnn]
      rw [show pyEndsWith (String.mk (core ++ ("" : String).data)) "\r" =
        List.isSuffixOf ['\r'] core by simp [pyEndsWith]]
      rw [isSuffixOf_single_false '\r' core hnr]
      rw [show pyEndsWith (String.mk (core ++ ("" : String).data)) "\n" =
        List.isSuffixOf ['\n'] core by simp [pyEndsWith]]
      rw [isSuffixOf_single_false '\n' core hnn]
      simp only [Bool.false_eq_true, if_false, hdata]
      rw [show (core ++ ("" : String).data).contains '\n' = core.contains '\n' by
        simp [show ("" : String).data = [] from rfl]]
      rw [show (core ++ ("" : String).data).contains '\r' = core.contains '\r' by
        simp [show ("" : String).data = [] from rfl]]
      rw [hcn, hcr]
      simp only [Bool.false_eq_true, if_false]
      show Except.ok (String.mk (core ++ []) ++ "\n") = _
      simp [String.ext_iff]
  · -- terminator "\n"
    have hne : String.mk (core ++ ("\n" : String).data) ≠ "" := by
      intro h
      have h2 := congrArg String.data h
      simp [show ("\n" : String).data = ['\n'] from rfl, show ("" : String).data = [] from rfl] at h2
    rw [normalize_line, if_neg hne]
    simp only [show ("\n" : String).data = ['\n'] from rfl]
    rw [show pyEndsWith (String.mk (core ++ ['\n'])) "\n\r" =
      List.isSuffixOf ['\n', '\r'] (core ++ ['\n']) from rfl]
    rw [isSuffixOf_pair_last_ne '\n' '\r' '\n' _ (List.getLast?_concat core) (by decide)]
    rw [show pyEndsWith (String.mk (core ++ ['\n'])) "\r\n" =
      List.isSuffixOf ['\r', '\n'] (core ++ ['\n']) from rfl]
    rw [isSuffixOf_pair_concat '\r' '\n' core, isSuffixOf_single_false '\r' core hnr]
    rw [show pyEndsWith (String.mk (core ++ ['\n'])) "\r" =
      List.isSuffixOf ['\r'] (core ++ ['\n']) from rfl]
    rw [isSuffixOf_single_last_ne '\r' '\n' _ (List.getLast?_concat core) (by decide)]
    rw [show pyEndsWith (String.mk (core ++ ['\n'])) "\n" =
      List.isSuffixOf ['\n'] (core ++ ['\n']) from rfl]
    rw [isSuffixOf_single_concat '\n' core]
    simp only [Bool.false_eq_true, if_false, if_true]
    rw [show strDropRight (String.mk (core ++ ['\n'])) 1 = String.mk core by
      simp only [strDropRight, hdata, List.length_append, List.length_cons, List.length_nil]
      rw [List.take_left' (by omega)]]
    rw [hdata, hcn, hcr]
    simp only [Bool.false_eq_true, if_false]
    show Except.ok (String.mk core ++ "\n") = _
    simp [String.ext_iff]
  · -- terminator "\r"
    have hne : String.mk (core ++ ("\r" : String).data) ≠ "" := by
      intro h
      have h2 := congrArg String.data h
      simp [show ("\r" : String).data = ['\r'] from rfl, show ("" : String).data = [] from rfl] at h2
    rw [normalize_line, if_neg hne]
    simp only [show ("\r" : String).data = ['\r'] from rfl]
    rw [show pyEndsWith (String.mk (core ++ ['\r'])) "\n\r" =
      List.isSuffixOf ['\n', '\r'] (core ++ ['\r']) from rfl]
    rw [isSuffixOf_pair_concat '\n' '\r' core, isSuffixOf_single_false '\n' core hnn]
    rw [show pyEndsWith (String.mk (core ++ ['\r'])) "\r\n" =
      List.isSuffixOf ['\r', '\n'] (core ++ ['\r']) from rfl]
    rw [isSuffixOf_pair_last_ne '\r' '\n' '\r' _ (List.getLast?_concat core) (by decide)]
    rw [show pyEndsWith (String.mk (core ++ ['\r'])) "\r" =
      List.isSuffixOf ['\r'] (core ++ ['\r']) from rfl]
    rw [isSuffixOf_single_concat '\r' core]
    simp only [Bool.false_eq_true, if_false, if_true]
    rw [show strDropRight (String.mk (core ++ ['\r'])) 1 = String.mk core by
      simp only [strDropRight, hdata, List.length_append, List.length_cons, List.length_nil]
      rw [List.take_left' (by omega)]]
    rw [hdata, hcn, hcr]
    simp only [Bool.false_eq_true, if_false]
    show Except.ok (String.mk core ++ "\n") = _
    simp [String.ext_iff]
  · -- terminator "\r\n"
    have hne : String.mk (core ++ ("\r\n" : String).data) ≠ "" := by
      intro h
      have h2 := congrArg String.data h
      simp [show ("\r\n" : String).data = ['\r', '\n'] from rfl,
        show ("" : String).data = [] from rfl] at h2
    rw [normalize_line, if_neg hne]
    simp only [show ("\r\n" : String).data = ['\r', '\n'] from rfl]
    have hsplit : core ++ ['\r', '\n'] = (core ++ ['\r']) ++ ['\n'] := by simp
    rw [show pyEndsWith (String.mk (core ++ ['\r', '\n'])) "\n\r" =
      List.isSuffixOf ['\n', '\r'] (core ++ ['\r', '\n']) from rfl]
    rw [hsplit]
    rw [isSuffixOf_pair_last_ne '\n' '\r' '\n' _ (List.getLast?_concat _) (by decide)]
    rw [show pyEndsWith (String.mk ((core ++ ['\r']) ++ ['\n'])) "\r\n" =
      List.isSuffixOf ['\r', '\n'] ((core ++ ['\r']) ++ ['\n']) from rfl]
    rw [isSuffixOf_pair_concat '\r' '\n' (core ++ ['\r']), isSuffixOf_single_concat '\r' core]
    simp only [Bool.false_eq_true, if_false, if_true]
    rw [show strDropRight (String.mk ((core ++ ['\r']) ++ ['\n'])) 2 = String.mk core by
      simp only [strDropRight, hdata, List.length_append, List.length_cons, List.length_nil]
      rw [List.append_assoc]
      rw [List.take_left' (by omega)]]
    rw [hdata, hcn, hcr]
    simp only [Bool.false_eq_true, if_false]
    show Except.ok (String.mk core ++ "\n") = _
    simp [String.ext_iff]

/-- C8: when the context pattern of a mixed hunk has no exact match in the
suffix from the last-matched position nor in the fallback prefix, and fuzzy
matching is off, `capture_hunk` fails with `MissingHunkError` carrying the
hunk, whose formatted detail is exactly the concatenation of the hunk's
context and deletion lines with every addition line omitted. -/
theorem c8_missing_hunk
    (hunk ref : List String) (off : Int) (last : Nat) (oh : Option (Nat × String))
    (hm1 : countMinus hunk ≠ hunkLen hunk) (hm2 : countPlus hunk ≠ hunkLen hunk)
    (hctx : buildCtx hunk ≠ [])
    (h1 : exactSearch (buildCtx hunk) (ref.drop last) = none)
    (h2 : exactSearch (buildCtx hunk) (ref.take (last + hunkLen hunk)) = none)
    (hclean : ∀ l ∈ hunk, cleanLine l = true) :
    capture_hunk hunk ref off last oh false = .error (.missingHunk hunk) ∧
    format_hunk_for_error hunk =
      joinLines (hunk.filter fun l => pyStartsWith l " " || pyStartsWith l "-") := by
  have hne : hunk.isEmpty = false := by
    cases hunk with
    | nil => exact absurd rfl hm1
    | cons a t => rfl
  have hf1 := find_all_no_match hunk (ref.drop last) hctx h1
  have hf2 := find_all_no_match hunk (ref.take (last + hunkLen hunk)) hctx h2
  constructor
  · rw [capture_hunk]
    rw [show capture_hunk_core hunk ref off last oh false = .error (.missingHunk hunk) by
      simp only [capture_hunk_core, hne, Bool.false_eq_true, if_false, if_neg hm1, if_neg hm2,
        hf1, hf2, List.isEmpty_nil, Bool.not_true, if_false]
      rw [if_pos trivial]]
    rfl
  · exact format_hunk_clean hunk hclean

/-- C9: an empty hunk body makes `capture_hunk` raise the distinct sentinel
`EmptyHunk` (not a content-location error), and the end-of-input handling of
`fix_patch` silently drops an empty final pending hunk and returns normally. -/
theorem c9_empty_hunk_sentinel (st : EngineState) (add_newline fuzzy : Bool)
    (hfirst : st.first_hunk = false) (hcur : st.current_hunk = [])
    (hfl : st.fixed_lines ≠ []) :
    capture_hunk st.current_hunk st.original_lines st.offset st.last_hunk
      st.current_hunk_header fuzzy = .error .emptyHunk ∧
    (∀ lines prev, HunkErr.emptyHunk ≠ HunkErr.missingHunk lines ∧
      HunkErr.emptyHunk ≠ HunkErr.outOfOrder lines prev) ∧
    ∃ out, fix_patch_finalize add_newline fuzzy st = .ok out := by
  have hcap : capture_hunk st.current_hunk st.original_lines st.offset st.last_hunk
      st.current_hunk_header fuzzy = .error .emptyHunk := by
    rw [hcur]
    rfl
  refine ⟨hcap, fun lines prev => ⟨by simp, by simp⟩, ?_⟩
  unfold fix_patch_finalize
  rw [hfirst]
  simp only [Bool.false_eq_true, if_false, hcap]
  unfold final_newline_fix
  split
  · cases hfl2 : st.fixed_lines.getLast? with
    | none => exact absurd (List.getLast?_eq_none_iff.mp hfl2) hfl
    | some lastLine => exact ⟨_, rfl⟩
  · exact ⟨_, rfl⟩

/-- C10: loaded reference lines have their trailing newlines stripped, so the
last loaded line never ends with a newline; consequently with `add_newline`
off and at least one emitted line, the final adjustment of `fix_patch` always
strips the trailing newline from the last emitted line — for every on-disk
reference content, including files that did end with a newline. -/
theorem c10_strip_trailing_newline (file_lines fixed_lines : List String) (hfl : fixed_lines ≠ []) :
    (file_lines ≠ [] →
      pyEndsWith ((loadOriginalLines file_lines).getLastD "") "\n" = false) ∧
    final_newline_fix false (loadOriginalLines file_lines) fixed_lines =
      .ok (fixed_lines.dropLast ++ [pyRstripNewline (fixed_lines.getLastD "")]) := by
  have hnoend : file_lines ≠ [] →
      pyEndsWith ((loadOriginalLines file_lines).getLastD "") "\n" = false := by
    intro hne
    cases file_lines with
    | nil => exact absurd rfl hne
    | cons a t =>
      rw [loadOriginalLines_getLastD t a "" ""]
      exact pyRstripNewline_no_newline _
  refine ⟨hnoend, ?_⟩
  have hlast : fixed_lines.getLast? = some (fixed_lines.getLastD "") := by
    cases hfl2 : fixed_lines.getLast? with
    | none => exact absurd (List.getLast?_eq_none_iff.mp hfl2) hfl
    | some x => rw [List.getLastD_eq_getLast?, hfl2]; rfl
  have hcond : (!false && ((!(loadOriginalLines file_lines).isEmpty &&
      !pyEndsWith ((loadOriginalLines file_lines).getLastD "") "\n") ||
      (!fixed_lines.isEmpty && (loadOriginalLines file_lines).isEmpty))) = true := by
    cases file_lines with
    | nil =>
      have : fixed_lines.isEmpty = false := by
        cases fixed_lines with
        | nil => exact absurd rfl hfl
        | cons x y => rfl
      simp [loadOriginalLines, this]
    | cons a t =>
      have h1 : (loadOriginalLines (a :: t)).isEmpty = false := rfl
      rw [h1, hnoend (by simp)]
      simp
  rw [final_newline_fix, if_pos hcond, hlast]

/-- Witness for C2's amended theorem at Scenario A: offset moves by
(4 − 3) = 1 and the header's old-start equals the returned last-matched
position 1. -/
theorem c2_amended_update_witness :
    (1 : Int) = 0 + ((4 : Int) - (3 : Int)) ∧
    ∃ ns, "@@ -1,3 +1,4 @@\n" = renderHunkHeader 1 3 ns 4 "" :=
  c2_amended_update [" line 1\n", " line 2\n", "+added line\n", " line 3\n"]
    ["line 1", "line 2", "line 3"] 0 0 (some (99, "")) false
    "@@ -1,3 +1,4 @@\n" 1 1 (by rfl)

/-- Witness for C3: context `[" a"," b"]` plus an addition matches at
positions 1 and 4; with stated old-start 5 the resolved start is 5
(candidate 4, 1-based 5), the match nearest the hint rather than the first
textual match. -/
theorem c3_closest_candidate_witness :
    1 ≤ 5 ∧
    ((5 : Nat) ≠ 0 → ∃ l1 l2, ([1, 4] : List Nat) = l1 ++ 4 :: l2 ∧
      (∀ q ∈ l1, hintDistance 5 4 < hintDistance 5 q) ∧
      (∀ q ∈ l2, hintDistance 5 4 ≤ hintDistance 5 q)) ∧
    ((5 : Nat) = 0 → 5 = 2) :=
  c3_closest_candidate [" a\n", " b\n", "+c\n"] ["x", "a", "b", "x", "a", "b"]
    0 0 (some (5, "")) [1, 4] "@@ -5,2 +5,3 @@\n" 1 5
    (by decide) (by decide) (by rfl) (by decide) (by rfl)

/-- Witness for C4's amended theorem: two searched hunks resolve to
old-starts 1 and then 3, strictly increasing. -/
theorem c4_amended_search_monotonic_witness :
    capture_hunk [" line 1\n"] ["line 1", "line 2", "line 3"] 0 0 (some (1, "")) false =
      .ok ("@@ -1 +1 @@\n", 0, 1) ∧
    capture_hunk [" line 3\n"] ["line 1", "line 2", "line 3"] 0 1 (some (3, "")) false =
      .ok ("@@ -3 +3 @@\n", 0, 3) ∧
    (1 : Nat) < 3 :=
  ⟨rfl, rfl,
    c4_amended_search_monotonic [" line 1\n"] [" line 3\n"] ["line 1", "line 2", "line 3"]
      0 0 0 (some (1, "")) (some (3, "")) false "@@ -1 +1 @@\n" "@@ -3 +3 @@\n"
      0 0 1 3 (by decide) (by decide) (by rfl) (by rfl)⟩

/-- Witness for C5: a pure-deletion hunk resolves to (1, 0), a pure-addition
hunk to (0, 1) with old range (0,0), also against the empty reference. -/
theorem c5_degenerate_cases_witness :
    capture_hunk_core ["-a\n"] ["a"] 0 0 none false = .ok ⟨1, 1, 0, 0, "", -1, 1⟩ ∧
    capture_hunk_core ["+a\n", "+b\n"] ["a"] 0 0 none false = .ok ⟨0, 0, 1, 2, "", 2, 0⟩ ∧
    capture_hunk_core ["+a\n", "+b\n"] [] 0 0 none false = .ok ⟨0, 0, 1, 2, "", 2, 0⟩ :=
  c5_degenerate_cases ["-a\n"] ["+a\n", "+b\n"] ["a"] 0 0 none false
    (by decide) (by decide) (by decide) (by decide)

/-- Witness for C6 at Scenario A: the emitted header carries old-count 3 =
context + deletions and new-count 4 = context + additions. -/
theorem c6_count_consistency_witness :
    ∃ os ns, "@@ -1,3 +1,4 @@\n" = renderHunkHeader os 3 ns 4 "" :=
  c6_count_consistency [" line 1\n", " line 2\n", "+added line\n", " line 3\n"]
    ["line 1", "line 2", "line 3"] 0 0 (some (99, "")) false
    "@@ -1,3 +1,4 @@\n" 1 1 (by rfl)

/-- Witness for C7's amended theorem: the addition line `"+x \n"` keeps its
trailing space, only the terminator is normalized. -/
theorem c7_amended_normalize_witness :
    normalize_line (String.mk (['+', 'x', ' '] ++ ("\n" : String).data)) =
      .ok (String.mk (['+', 'x', ' '] ++ ['\n'])) :=
  c7_amended_normalize ['+', 'x', ' '] "\n" (by decide) (Or.inr (Or.inl rfl))

/-- Witness for C8: a hunk whose context occurs nowhere in the reference
fails with `MissingHunkError`, and its formatted detail keeps `" nope\n"`
while omitting the addition `"+b\n"`. -/
theorem c8_missing_hunk_witness :
    capture_hunk [" nope\n", "+b\n"] ["x", "y"] 0 0 (some (1, "")) false =
      .error (.missingHunk [" nope\n", "+b\n"]) ∧
    format_hunk_for_error [" nope\n", "+b\n"] =
      joinLines (([" nope\n", "+b\n"]).filter fun l => pyStartsWith l " " || pyStartsWith l "-") :=
  c8_missing_hunk [" nope\n", "+b\n"] ["x", "y"] 0 0 (some (1, ""))
    (by decide) (by decide) (by decide) (by rfl) (by rfl) (by decide)

/-- Witness for C9: with an empty pending hunk the engine's end-of-input
handling succeeds instead of raising. -/
theorem c9_empty_hunk_sentinel_witness :
    capture_hunk ([] : List String) [] 0 0 none false = .error .emptyHunk ∧
    (HunkErr.emptyHunk ≠ HunkErr.missingHunk [] ∧
      HunkErr.emptyHunk ≠ HunkErr.outOfOrder [] "") ∧
    (∃ out, fix_patch_finalize false false
      ⟨["diff --git a/f b/f\n"], [], false, 0, 0, none, []⟩ = .ok out) := by
  have h := c9_empty_hunk_sentinel ⟨["diff --git a/f b/f\n"], [], false, 0, 0, none, []⟩
    false false rfl rfl (by decide)
  exact ⟨h.1, h.2.1 [] "", h.2.2⟩

/-- Witness for C10: even for an on-disk reference that ends with a newline,
the loaded last line does not, and the final line of the output has its
newline stripped. -/
theorem c10_strip_trailing_newline_witness :
    ((["hello\n"] : List String) ≠ [] →
      pyEndsWith ((loadOriginalLines ["hello\n"]).getLastD "") "\n" = false) ∧
    final_newline_fix false (loadOriginalLines ["hello\n"]) ["+x\n"] =
      .ok ((["+x\n"] : List String).dropLast ++
        [pyRstripNewline ((["+x\n"] : List String).getLastD "")]) :=
  c10_strip_trailing_newline ["hello\n"] ["+x\n"] (by decide)
